import Mathlib

/-!
Verification of the steam-manifest acquisition tool (`main.py` and
`src/steam_manifest/`).  The Python code is shallowly embedded: pure helpers
become Lean functions over `Nat`/`String`/`List`, the Python `dict` used by the
deduplicator becomes an insertion-ordered association list, HTTP and the
filesystem become explicit oracles/traces, and `int`s are `Nat` (all ids in the
program are non-negative).  Python strings are compared code point by code
point, which we model on `String.data : List Char` with executable functions so
that concrete runs reduce in the kernel.
-/

/-! ## Python-string primitives (code-point semantics, kernel-executable) -/

/-- Python `a < b` on strings: lexicographic comparison of code points. -/
def chrsLtB : List Char → List Char → Bool
  | [], [] => false
  | [], _ :: _ => true
  | _ :: _, [] => false
  | a :: as, b :: bs =>
    if a.toNat < b.toNat then true
    else if b.toNat < a.toNat then false
    else chrsLtB as bs

/-- Python `s.endswith(t)`. -/
def strEndsWith (s t : String) : Bool :=
  decide (t.data.length ≤ s.data.length) &&
    (s.data.drop (s.data.length - t.data.length) == t.data)

/-- Python `s.split(sep)` for a one-character separator (both separators used
by the source, `"_"` and `"."`, are single characters). -/
def chrsSplit (sep : Char) : List Char → List (List Char)
  | [] => [[]]
  | c :: cs =>
    let r := chrsSplit sep cs
    if c = sep then [] :: r
    else
      match r with
      | [] => [[c]]
      | p :: ps => (c :: p) :: ps

def pySplit (s : String) (sep : Char) : List String :=
  (chrsSplit sep s.data).map (fun cs => ⟨cs⟩)

/-- ASCII lower-casing of one character (Python `str.lower` on the ASCII
names appearing in the repository trees). -/
def chLower (c : Char) : Char :=
  if c.toNat < 65 || 90 < c.toNat then c else Char.ofNat (c.toNat + 32)

def pyLower (s : String) : String := ⟨s.data.map chLower⟩

/-- Python `int(s)` on a digit string. -/
def digitsToNat : List Char → Nat → Nat
  | [], acc => acc
  | c :: cs, acc => digitsToNat cs (acc * 10 + (c.toNat - 48))

def pyInt (s : String) : Nat := digitsToNat s.data 0

/-! ## `remove_duplicates` (`utils/deduplicator.py`, duplicated in `main.py`)

The Python function builds an insertion-ordered `dict` keyed by depot id:

    for t in tuples:
        if t[0] not in result_dict or (result_dict[t[0]][1] is None and t[1] is not None):
            result_dict[t[0]] = t
    return list(result_dict.values())

We model the dict as an association list in insertion order: assigning to an
existing key updates the value in place, assigning to a new key appends. -/

def dictGet : List (Nat × Option String) → Nat → Option (Option String)
  | [], _ => none
  | (j, v) :: rest, i => if j = i then some v else dictGet rest i

def dictSet : List (Nat × Option String) → Nat → Option String → List (Nat × Option String)
  | [], i, v => [(i, v)]
  | (j, w) :: rest, i, v => if j = i then (i, v) :: rest else (j, w) :: dictSet rest i v

/-- One iteration of the loop body of `remove_duplicates`. -/
def dedupStep (m : List (Nat × Option String)) (t : Nat × Option String) :
    List (Nat × Option String) :=
  match dictGet m t.1 with
  | none => dictSet m t.1 t.2
  | some v => if v = none ∧ t.2 ≠ none then dictSet m t.1 t.2 else m

def remove_duplicates (l : List (Nat × Option String)) : List (Nat × Option String) :=
  l.foldl dedupStep []

/-- The key carried by the first record of `l` for id `i` that carries a
non-null key (`none` when no record for `i` is keyed). -/
def firstKeyedKey (l : List (Nat × Option String)) (i : Nat) : Option String :=
  match l.find? (fun t => t.1 == i && t.2.isSome) with
  | some t => t.2
  | none => none

/-! ### Association-list lemmas -/

theorem dictGet_eq_none_iff (m : List (Nat × Option String)) (i : Nat) :
    dictGet m i = none ↔ i ∉ m.map Prod.fst := by
  induction m with
  | nil => simp [dictGet]
  | cons hd tl ih =>
    obtain ⟨j, v⟩ := hd
    by_cases h : j = i
    · subst h; simp [dictGet]
    · have h' : i ≠ j := Ne.symm h
      simp [dictGet, h, ih, h']

theorem dictGet_dictSet_ne (m : List (Nat × Option String)) (i j : Nat)
    (v : Option String) (h : j ≠ i) : dictGet (dictSet m i v) j = dictGet m j := by
  have h' : i ≠ j := Ne.symm h
  induction m with
  | nil => simp [dictGet, dictSet, h']
  | cons hd tl ih =>
    obtain ⟨k, w⟩ := hd
    by_cases hk : k = i
    · subst hk
      simp [dictSet, dictGet, h']
    · simp [dictSet, dictGet, hk, ih]

theorem dictGet_dictSet_self (m : List (Nat × Option String)) (i : Nat)
    (v : Option String) : dictGet (dictSet m i v) i = some v := by
  induction m with
  | nil => simp [dictGet, dictSet]
  | cons hd tl ih =>
    obtain ⟨k, w⟩ := hd
    by_cases hk : k = i <;> simp [dictSet, dictGet, hk, ih]

theorem dictSet_of_not_mem (m : List (Nat × Option String)) (i : Nat)
    (v : Option String) (h : i ∉ m.map Prod.fst) :
    dictSet m i v = m ++ [(i, v)] := by
  induction m with
  | nil => simp [dictSet]
  | cons hd tl ih =>
    obtain ⟨k, w⟩ := hd
    simp only [List.map_cons, List.mem_cons] at h
    push_neg at h
    have hk : k ≠ i := Ne.symm h.1
    simp [dictSet, hk, ih h.2]

theorem map_fst_dictSet_of_mem (m : List (Nat × Option String)) (i : Nat)
    (v : Option String) (h : i ∈ m.map Prod.fst) :
    (dictSet m i v).map Prod.fst = m.map Prod.fst := by
  induction m with
  | nil => simp at h
  | cons hd tl ih =>
    obtain ⟨k, w⟩ := hd
    by_cases hk : k = i
    · simp [dictSet, hk]
    · simp only [List.map_cons, List.mem_cons] at h
      rcases h with h | h
      · exact absurd h.symm hk
      · simp [dictSet, hk, ih h]

theorem map_fst_dedupStep (m : List (Nat × Option String)) (t : Nat × Option String) :
    (dedupStep m t).map Prod.fst =
      if t.1 ∈ m.map Prod.fst then m.map Prod.fst else m.map Prod.fst ++ [t.1] := by
  unfold dedupStep
  by_cases h : t.1 ∈ m.map Prod.fst
  · have hget : dictGet m t.1 ≠ none := by
      rw [Ne, dictGet_eq_none_iff]; exact fun hc => hc h
    obtain ⟨v, hv⟩ := Option.ne_none_iff_exists'.mp hget
    rw [hv]
    by_cases hcond : v = none ∧ t.2 ≠ none
    · simp [hcond, map_fst_dictSet_of_mem m t.1 t.2 h, h]
    · simp [hcond, h]
  · have hget : dictGet m t.1 = none := (dictGet_eq_none_iff m t.1).mpr h
    rw [hget, dictSet_of_not_mem m t.1 t.2 h]
    simp [h]

theorem map_fst_foldl_nodup (l : List (Nat × Option String)) :
    ∀ m : List (Nat × Option String), (m.map Prod.fst).Nodup →
      ((l.foldl dedupStep m).map Prod.fst).Nodup := by
  induction l with
  | nil => intro m hm; simpa using hm
  | cons t rest ih =>
    intro m hm
    rw [List.foldl_cons]
    refine ih _ ?_
    rw [map_fst_dedupStep]
    by_cases h : t.1 ∈ m.map Prod.fst
    · simpa [h] using hm
    · simp only [h, if_false]
      rw [List.nodup_append]
      refine ⟨hm, List.nodup_singleton _, ?_⟩
      intro a ha hb
      rw [List.mem_singleton] at hb
      exact h (hb ▸ ha)

theorem mem_map_fst_foldl (l : List (Nat × Option String)) :
    ∀ (m : List (Nat × Option String)) (i : Nat),
      i ∈ (l.foldl dedupStep m).map Prod.fst ↔
        i ∈ m.map Prod.fst ∨ i ∈ l.map Prod.fst := by
  induction l with
  | nil => intro m i; simp
  | cons t rest ih =>
    intro m i
    rw [List.foldl_cons, ih]
    rw [map_fst_dedupStep]
    by_cases h : t.1 ∈ m.map Prod.fst
    · simp only [h, if_true, List.map_cons, List.mem_cons]
      constructor
      · rintro (hh | hh)
        · exact Or.inl hh
        · exact Or.inr (Or.inr hh)
      · rintro (hh | hh | hh)
        · exact Or.inl hh
        · exact Or.inl (hh ▸ h)
        · exact Or.inr hh
    · simp only [h, if_false, List.mem_append, List.mem_singleton, List.map_cons,
        List.mem_cons]
      tauto

theorem map_fst_foldl_sublist (l : List (Nat × Option String)) :
    ∀ m : List (Nat × Option String),
      ((l.foldl dedupStep m).map Prod.fst).Sublist (m.map Prod.fst ++ l.map Prod.fst) := by
  induction l with
  | nil => intro m; simp
  | cons t rest ih =>
    intro m
    rw [List.foldl_cons]
    refine (ih (dedupStep m t)).trans ?_
    rw [map_fst_dedupStep]
    by_cases h : t.1 ∈ m.map Prod.fst
    · simp only [h, if_true, List.map_cons]
      refine List.Sublist.append (List.Sublist.refl _) ?_
      exact List.sublist_cons_self _ _
    · simp only [h, if_false, List.map_cons, List.append_assoc, List.singleton_append]
      exact List.Sublist.refl _

theorem firstKeyedKey_cons (t : Nat × Option String) (rest : List (Nat × Option String))
    (i : Nat) :
    firstKeyedKey (t :: rest) i =
      if t.1 = i ∧ t.2.isSome then t.2 else firstKeyedKey rest i := by
  unfold firstKeyedKey
  rw [List.find?_cons]
  by_cases h : t.1 = i ∧ t.2.isSome = true
  · simp [h.1, h.2]
  · have : (t.1 == i && t.2.isSome) = false := by
      rcases Decidable.not_and_iff_or_not.mp h with h1 | h1 <;> simp_all
    simp [this, h]

theorem dictGet_dedupStep_ne (m : List (Nat × Option String)) (t : Nat × Option String)
    (i : Nat) (h : t.1 ≠ i) : dictGet (dedupStep m t) i = dictGet m i := by
  unfold dedupStep
  cases hget : dictGet m t.1 with
  | none => exact dictGet_dictSet_ne m t.1 i t.2 (fun hh => h hh.symm)
  | some v =>
    show dictGet (if v = none ∧ t.2 ≠ none then dictSet m t.1 t.2 else m) i = dictGet m i
    by_cases hcond : v = none ∧ t.2 ≠ none
    · rw [if_pos hcond]
      exact dictGet_dictSet_ne m t.1 i t.2 (fun hh => h hh.symm)
    · rw [if_neg hcond]

theorem dictGet_foldl_keyed (l : List (Nat × Option String)) :
    ∀ (m : List (Nat × Option String)) (i : Nat) (k : String),
      dictGet m i = some (some k) →
      dictGet (l.foldl dedupStep m) i = some (some k) := by
  induction l with
  | nil => intro m i k h; simpa using h
  | cons t rest ih =>
    intro m i k h
    rw [List.foldl_cons]
    by_cases ht : t.1 = i
    · refine ih _ i k ?_
      unfold dedupStep
      rw [ht, h]
      simpa using h
    · exact ih _ i k (by rw [dictGet_dedupStep_ne m t i ht]; exact h)

theorem dictGet_foldl_unkeyed (l : List (Nat × Option String)) :
    ∀ (m : List (Nat × Option String)) (i : Nat),
      dictGet m i = some none →
      dictGet (l.foldl dedupStep m) i = some (firstKeyedKey l i) := by
  induction l with
  | nil => intro m i h; simpa [firstKeyedKey] using h
  | cons t rest ih =>
    intro m i h
    rw [List.foldl_cons, firstKeyedKey_cons]
    by_cases ht : t.1 = i
    · cases htv : t.2 with
      | none =>
        have hstep : dedupStep m t = m := by
          unfold dedupStep; rw [ht, h]; simp [htv]
        rw [hstep, ih m i h]
        simp [ht, htv]
      | some k =>
        have hstep : dedupStep m t = dictSet m i (some k) := by
          unfold dedupStep; rw [ht, h]; simp [htv]
        rw [hstep]
        have : dictGet (dictSet m i (some k)) i = some (some k) :=
          dictGet_dictSet_self m i (some k)
        rw [dictGet_foldl_keyed rest _ i k this]
        simp [ht, htv]
    · rw [ih _ i (by rw [dictGet_dedupStep_ne m t i ht]; exact h)]
      simp [ht]

theorem dictGet_foldl_new (l : List (Nat × Option String)) :
    ∀ (m : List (Nat × Option String)) (i : Nat),
      dictGet m i = none →
      dictGet (l.foldl dedupStep m) i =
        if i ∈ l.map Prod.fst then some (firstKeyedKey l i) else none := by
  induction l with
  | nil => intro m i h; simpa using h
  | cons t rest ih =>
    intro m i h
    rw [List.foldl_cons, firstKeyedKey_cons]
    by_cases ht : t.1 = i
    · have hstep : dedupStep m t = dictSet m i t.2 := by
        unfold dedupStep; rw [ht, h]
      rw [hstep]
      cases htv : t.2 with
      | none =>
        have : dictGet (dictSet m i none) i = some none := dictGet_dictSet_self m i none
        rw [dictGet_foldl_unkeyed rest _ i this]
        simp [ht, htv]
      | some k =>
        have : dictGet (dictSet m i (some k)) i = some (some k) :=
          dictGet_dictSet_self m i (some k)
        rw [dictGet_foldl_keyed rest _ i k this]
        simp [ht, htv]
    · rw [ih _ i (by rw [dictGet_dedupStep_ne m t i ht]; exact h)]
      have ht' : i ≠ t.1 := fun hh => ht hh.symm
      by_cases hm : i ∈ List.map Prod.fst rest
      · simp [hm, List.mem_cons, ht]
      · simp [hm, List.mem_cons, ht, ht']

theorem dictGet_mem (m : List (Nat × Option String)) (i : Nat) (v : Option String)
    (h : dictGet m i = some v) : (i, v) ∈ m := by
  induction m with
  | nil => simp [dictGet] at h
  | cons hd tl ih =>
    obtain ⟨k, w⟩ := hd
    by_cases hk : k = i
    · subst hk
      have h' : (if k = k then some w else dictGet tl k) = some v := h
      rw [if_pos rfl, Option.some.injEq] at h'
      subst h'
      exact List.mem_cons_self _ _
    · have h' : (if k = i then some w else dictGet tl i) = some v := h
      rw [if_neg hk] at h'
      exact List.mem_cons_of_mem _ (ih h')

theorem foldl_dedupStep_of_nodup (l : List (Nat × Option String)) :
    ∀ m : List (Nat × Option String), (l.map Prod.fst).Nodup →
      (∀ i ∈ l.map Prod.fst, i ∉ m.map Prod.fst) →
      l.foldl dedupStep m = m ++ l := by
  induction l with
  | nil => intro m _ _; simp
  | cons t rest ih =>
    intro m hnd hdisj
    rw [List.foldl_cons]
    have ht : t.1 ∉ m.map Prod.fst := hdisj t.1 (by simp)
    have hstep : dedupStep m t = m ++ [t] := by
      unfold dedupStep
      rw [(dictGet_eq_none_iff m t.1).mpr ht, dictSet_of_not_mem m t.1 t.2 ht]
    have hdisj' : ∀ i ∈ rest.map Prod.fst, i ∉ (m ++ [t]).map Prod.fst := by
      intro i hi
      simp only [List.map_append, List.mem_append, List.map_cons, List.map_nil,
        List.mem_singleton]
      rintro (hc | hc)
      · exact hdisj i (by simp [hi]) hc
      · rw [List.map_cons, List.nodup_cons] at hnd
        exact hnd.1 (hc ▸ hi)
    have hnd' : (rest.map Prod.fst).Nodup := by
      rw [List.map_cons, List.nodup_cons] at hnd
      exact hnd.2
    rw [hstep, ih (m ++ [t]) hnd' hdisj']
    simp

/-- C1: for every list of (depot_id, optional key) records, `remove_duplicates`
keeps each input depot id exactly once (its id multiset is duplicate-free and
has the same members as the input), the emitted record for an id carries a
non-null key whenever some input record for that id does, the function is
idempotent, and `[(10, None), (10, "ABC"), (20, None)]` maps to
`[(10, "ABC"), (20, None)]`. -/
theorem remove_duplicates_spec :
    (∀ l : List (Nat × Option String),
        ((remove_duplicates l).map Prod.fst).Nodup
      ∧ (∀ i, i ∈ (remove_duplicates l).map Prod.fst ↔ i ∈ l.map Prod.fst)
      ∧ (∀ i k, (i, some k) ∈ l → ∃ k', (i, some k') ∈ remove_duplicates l)
      ∧ remove_duplicates (remove_duplicates l) = remove_duplicates l)
    ∧ remove_duplicates [(10, none), (10, some "ABC"), (20, none)] =
        [(10, some "ABC"), (20, none)] := by
  constructor
  · intro l
    refine ⟨map_fst_foldl_nodup l [] (by simp), ?_, ?_, ?_⟩
    · intro i
      simpa using mem_map_fst_foldl l [] i
    · intro i k hmem
      have hi : i ∈ l.map Prod.fst := by
        simpa using List.mem_map_of_mem Prod.fst hmem
      have hget := dictGet_foldl_new l [] i (by simp [dictGet])
      rw [if_pos hi] at hget
      have hfind : ∃ t, l.find? (fun t => t.1 == i && t.2.isSome) = some t := by
        rw [← Option.isSome_iff_exists, List.find?_isSome]
        exact ⟨(i, some k), hmem, by simp⟩
      obtain ⟨t, hts⟩ := hfind
      have hp := List.find?_some hts
      rw [Bool.and_eq_true, beq_iff_eq] at hp
      obtain ⟨hti, hsome⟩ := hp
      obtain ⟨k', htk⟩ := Option.isSome_iff_exists.mp hsome
      have hfk : firstKeyedKey l i = some k' := by
        unfold firstKeyedKey
        rw [hts]
        exact htk
      rw [hfk] at hget
      have hm := dictGet_mem _ i (some k') hget
      exact ⟨k', by simpa [remove_duplicates] using hm⟩
    · have hnd := map_fst_foldl_nodup l [] (by simp)
      unfold remove_duplicates
      exact foldl_dedupStep_of_nodup _ [] hnd (by simp)
  · decide

theorem remove_duplicates_spec_witness :
    ∃ k', ((10 : Nat), some k') ∈
      remove_duplicates [(10, none), (10, some "ABC"), (20, none)] :=
  (remove_duplicates_spec.1 [(10, none), (10, some "ABC"), (20, none)]).2.2.1
    10 "ABC" (by decide)

/-- C5 counterexample: among several keyed records for the same depot id the
code keeps the FIRST keyed record, not the last one the claim asserts:
`[(1, "A"), (1, "B")]` deduplicates to `[(1, "A")]`, not `[(1, "B")]`. -/
theorem remove_duplicates_not_last_write_wins :
    remove_duplicates [(1, some "A"), (1, some "B")] = [(1, some "A")]
    ∧ remove_duplicates [(1, some "A"), (1, some "B")] ≠ [(1, some "B")] := by
  decide

/-- C5 (amended): deduplication is first-write-wins among keyed variants — for
every input list and every depot id occurring in it, the emitted value for that
id is exactly the key of the first keyed record for the id in accumulation
order (null when no record for the id is keyed). -/
theorem remove_duplicates_first_keyed_wins (l : List (Nat × Option String)) (i : Nat)
    (h : i ∈ l.map Prod.fst) :
    dictGet (remove_duplicates l) i = some (firstKeyedKey l i) := by
  have hget := dictGet_foldl_new l [] i (by simp [dictGet])
  rw [if_pos h] at hget
  exact hget

theorem remove_duplicates_first_keyed_wins_witness :
    dictGet (remove_duplicates [(1, some "A"), (1, some "B")]) 1 =
      some (firstKeyedKey [(1, some "A"), (1, some "B")] 1) :=
  remove_duplicates_first_keyed_wins [(1, some "A"), (1, some "B")] 1 (by decide)

/-! ## Code-point order lemmas for `chrsLtB` -/

theorem char_eq_of_toNat_eq {a b : Char} (h : a.toNat = b.toNat) : a = b :=
  Char.ext (UInt32.toNat.inj h)

theorem string_eq_of_data_eq {a b : String} (h : a.data = b.data) : a = b := by
  cases a; cases b; simp only at h; rw [h]

theorem chrsLtB_irrefl : ∀ l : List Char, chrsLtB l l = false
  | [] => rfl
  | a :: as => by simp [chrsLtB, Nat.lt_irrefl, chrsLtB_irrefl as]

theorem chrsLtB_trans (a : List Char) : ∀ b c : List Char,
    chrsLtB a b = true → chrsLtB b c = true → chrsLtB a c = true := by
  induction a with
  | nil =>
    intro b c hab hbc
    cases b with
    | nil => simp [chrsLtB] at hab
    | cons y ys =>
      cases c with
      | nil => simp [chrsLtB] at hbc
      | cons z zs => simp [chrsLtB]
  | cons x xs ih =>
    intro b c hab hbc
    cases b with
    | nil => simp [chrsLtB] at hab
    | cons y ys =>
      cases c with
      | nil => simp [chrsLtB] at hbc
      | cons z zs =>
        simp only [chrsLtB] at hab hbc ⊢
        rcases Nat.lt_trichotomy x.toNat y.toNat with hxy | hxy | hxy
        · rcases Nat.lt_trichotomy y.toNat z.toNat with hyz | hyz | hyz
          · simp [Nat.lt_trans hxy hyz]
          · simp [hyz ▸ hxy]
          · simp [Nat.lt_asymm hyz, hyz] at hbc
        · rw [hxy]
          simp only [hxy, Nat.lt_irrefl, if_false] at hab
          rcases Nat.lt_trichotomy y.toNat z.toNat with hyz | hyz | hyz
          · simp [hyz]
          · simp only [hyz, Nat.lt_irrefl, if_false] at hbc ⊢
            exact ih ys zs hab hbc
          · simp [Nat.lt_asymm hyz, hyz] at hbc
        · simp [Nat.lt_asymm hxy, hxy] at hab

theorem chrsLtB_eq_of_not_lt : ∀ a b : List Char,
    chrsLtB a b = false → chrsLtB b a = false → a = b := by
  intro a
  induction a with
  | nil =>
    intro b hab _
    cases b with
    | nil => rfl
    | cons y ys => simp [chrsLtB] at hab
  | cons x xs ih =>
    intro b hab hba
    cases b with
    | nil => simp [chrsLtB] at hba
    | cons y ys =>
      simp only [chrsLtB] at hab hba
      rcases Nat.lt_trichotomy x.toNat y.toNat with h | h | h
      · simp [h] at hab
      · have hxy : x = y := char_eq_of_toNat_eq h
        subst hxy
        simp only [Nat.lt_irrefl, if_false] at hab hba
        rw [ih ys hab hba]
      · simp [h, Nat.lt_asymm h] at hba

theorem chrsLtB_lt_of_lt_of_not_lt {m d d' : List Char}
    (h1 : chrsLtB m d = true) (h2 : chrsLtB m d' = false) : chrsLtB d' d = true := by
  cases h3 : chrsLtB d' m with
  | true => exact chrsLtB_trans d' m d h3 h1
  | false =>
    have : d' = m := chrsLtB_eq_of_not_lt d' m h3 h2
    rw [this]
    exact h1

/-! ## Repository resolution (`verify_latest_repository` in `main.py`,
`_find_latest_repository` in `core/client.py`)

The loop keeps `(last_date, curr_repo)` and for each candidate `repo` that
yields a branch with commit date `date` executes
`if not last_date or last_date < date: last_date, curr_repo = date, repo`.
A candidate is `(repo, some date)` when the branch lookup succeeded and
`(repo, none)` when it returned nothing or raised (both are skipped).
`not last_date` is Python truthiness, so the empty string also counts. -/

def latestStep (acc : Option String × Option String) (c : String × Option String) :
    Option String × Option String :=
  match c.2 with
  | none => acc
  | some d =>
    match acc.1 with
    | none => (some d, some c.1)
    | some last =>
      if last = "" ∨ chrsLtB last.data d.data then (some d, some c.1) else acc

def verify_latest_repository (cs : List (String × Option String)) : Option String :=
  (cs.foldl latestStep (none, none)).2

/-- Loop invariant of the candidate scan: either nothing with a date was seen,
or the accumulator holds the first candidate attaining the strict maximum of
the dates seen so far. -/
def SelInv (cs : List (String × Option String)) (acc : Option String × Option String) :
    Prop :=
  (acc = (none, none) ∧ ∀ c ∈ cs, c.2 = none) ∨
  (∃ d r l₁ l₂, acc = (some d, some r) ∧ cs = l₁ ++ (r, some d) :: l₂
    ∧ (∀ c ∈ l₁, ∀ d', c.2 = some d' → chrsLtB d'.data d.data = true)
    ∧ (∀ c ∈ l₂, ∀ d', c.2 = some d' → chrsLtB d.data d'.data = false))

theorem selInv_foldl (cs : List (String × Option String))
    (hne : ∀ c ∈ cs, ∀ d, c.2 = some d → d ≠ "") :
    SelInv cs (cs.foldl latestStep (none, none)) := by
  induction cs using List.reverseRecOn with
  | nil => exact Or.inl ⟨rfl, by simp⟩
  | append_singleton l a ih =>
    have hne' : ∀ c ∈ l, ∀ d, c.2 = some d → d ≠ "" := by
      intro c hc d hd
      exact hne c (by simp [hc]) d hd
    rw [List.foldl_append, List.foldl_cons, List.foldl_nil]
    rcases ih hne' with ⟨hacc, hall⟩ | ⟨d, r, l₁, l₂, hacc, hcs, hl₁, hl₂⟩
    · rw [hacc]
      cases ha : a.2 with
      | none =>
        refine Or.inl ⟨by simp [latestStep, ha], ?_⟩
        intro c hc
        rcases List.mem_append.mp hc with hc | hc
        · exact hall c hc
        · rw [List.mem_singleton] at hc
          rw [hc]
          exact ha
      | some da =>
        refine Or.inr ⟨da, a.1, l, [], by simp [latestStep, ha], ?_, ?_, by simp⟩
        · have : a = (a.1, some da) := by rw [← ha]
          rw [← this]
        · intro c hc d' hd'
          exact absurd (hall c hc) (by simp [hd'])
    · rw [hacc]
      cases ha : a.2 with
      | none =>
        refine Or.inr ⟨d, r, l₁, l₂ ++ [a], by simp [latestStep, ha], by
          rw [hcs]; simp, hl₁, ?_⟩
        intro c hc d' hd'
        rcases List.mem_append.mp hc with hc | hc
        · exact hl₂ c hc d' hd'
        · rw [List.mem_singleton] at hc
          rw [hc, ha] at hd'
          exact absurd hd' (by simp)
      | some da =>
        have hmne : d ≠ "" := by
          refine hne (r, some d) ?_ d rfl
          rw [hcs]
          simp
        cases hlt : chrsLtB d.data da.data with
        | true =>
          have hcond : (d = "" ∨ chrsLtB d.data da.data = true) := Or.inr hlt
          refine Or.inr ⟨da, a.1, l, [], ?_, ?_, ?_, by simp⟩
          · simp only [latestStep, ha]
            rw [if_pos hcond]
          · have : a = (a.1, some da) := by rw [← ha]
            rw [← this]
          · intro c hc d' hd'
            rw [hcs] at hc
            rcases List.mem_append.mp hc with hc | hc
            · exact chrsLtB_trans d'.data d.data da.data (hl₁ c hc d' hd') hlt
            · rcases List.mem_cons.mp hc with hc | hc
              · rw [hc] at hd'
                simp only at hd'
                rw [← Option.some.injEq d' d |>.mp hd'.symm] at hlt
                exact hlt
              · exact chrsLtB_lt_of_lt_of_not_lt hlt (hl₂ c hc d' hd')
        | false =>
          have hcond : ¬(d = "" ∨ chrsLtB d.data da.data = true) := by
            simp [hmne, hlt]
          refine Or.inr ⟨d, r, l₁, l₂ ++ [a], ?_, by rw [hcs]; simp, hl₁, ?_⟩
          · simp only [latestStep, ha]
            rw [if_neg hcond]
          · intro c hc d' hd'
            rcases List.mem_append.mp hc with hc | hc
            · exact hl₂ c hc d' hd'
            · rw [List.mem_singleton] at hc
              rw [hc, ha] at hd'
              rw [Option.some.injEq] at hd'
              rw [hd'] at hlt
              exact hlt

/-- C2: repository resolution selects the candidate with the strictly latest
branch commit date.  In general (over candidate lists whose reported dates are
non-empty strings, as ISO timestamps are): a `none` result means no candidate
reported a date, and a selected repository is the first candidate in list
order that attains the maximum date — every earlier candidate's date is
strictly smaller and no later candidate's date is larger (ties keep the
earlier-seen candidate, comparison is strict `<`).  Concretely, between
candidates dated 2023-01-01 and 2023-06-01 the latter wins in either order,
and with equal dates the earlier-seen candidate wins. -/
theorem verify_latest_repository_spec :
    (∀ cs : List (String × Option String),
        (∀ c ∈ cs, ∀ d, c.2 = some d → d ≠ "") →
        (verify_latest_repository cs = none → ∀ c ∈ cs, c.2 = none)
      ∧ (∀ r, verify_latest_repository cs = some r →
          ∃ d l₁ l₂, cs = l₁ ++ (r, some d) :: l₂
            ∧ (∀ c ∈ l₁, ∀ d', c.2 = some d' → chrsLtB d'.data d.data = true)
            ∧ (∀ c ∈ l₂, ∀ d', c.2 = some d' → chrsLtB d.data d'.data = false)))
    ∧ verify_latest_repository
        [("A", some "2023-01-01T00:00:00Z"), ("B", some "2023-06-01T00:00:00Z")]
        = some "B"
    ∧ verify_latest_repository
        [("B", some "2023-06-01T00:00:00Z"), ("A", some "2023-01-01T00:00:00Z")]
        = some "B"
    ∧ (∀ r1 r2 dd, dd ≠ "" →
        verify_latest_repository [(r1, some dd), (r2, some dd)] = some r1) := by
  refine ⟨?_, by decide, by decide, ?_⟩
  · intro cs hne
    have hinv := selInv_foldl cs hne
    constructor
    · intro hnone
      rcases hinv with ⟨_, hall⟩ | ⟨d, r, l₁, l₂, hacc, _, _, _⟩
      · exact hall
      · unfold verify_latest_repository at hnone
        rw [hacc] at hnone
        simp at hnone
    · intro r hr
      rcases hinv with ⟨hacc, _⟩ | ⟨d, r', l₁, l₂, hacc, hcs, hl₁, hl₂⟩
      · unfold verify_latest_repository at hr
        rw [hacc] at hr
        simp at hr
      · unfold verify_latest_repository at hr
        rw [hacc] at hr
        simp only at hr
        rw [Option.some.injEq] at hr
        subst hr
        exact ⟨d, l₁, l₂, hcs, hl₁, hl₂⟩
  · intro r1 r2 dd hdd
    unfold verify_latest_repository
    rw [List.foldl_cons, List.foldl_cons, List.foldl_nil]
    show (latestStep (latestStep (none, none) (r1, some dd)) (r2, some dd)).2 = some r1
    have h1 : latestStep (none, none) (r1, some dd) = (some dd, some r1) := rfl
    rw [h1]
    have hcond : ¬(dd = "" ∨ chrsLtB dd.data dd.data = true) := by
      simp [hdd, chrsLtB_irrefl]
    show (if dd = "" ∨ chrsLtB dd.data dd.data then (some dd, some r2)
      else (some dd, some r1)).2 = some r1
    rw [if_neg hcond]

theorem verify_latest_repository_spec_witness :
    verify_latest_repository [("X", some "2024-05-05"), ("Y", some "2024-05-05")]
      = some "X" :=
  verify_latest_repository_spec.2.2.2 "X" "Y" "2024-05-05" (by decide)

/-! ## HTTP fetch layer (`GitHubClient.api_request` in `core/github_client.py`,
`MainApp.api_request` in `main.py`)

Both implementations wrap the function in
`@retry(wait_fixed=RETRY_INTERVAL, stop_max_attempt_number=RETRY_TIMES)`
(the `retrying` library re-invokes the wrapped callable only when it RAISES,
up to the attempt bound, sleeping the fixed interval in between), and the
function body is one big `try` whose handlers catch `httpx.TimeoutException`,
`httpx.HTTPStatusError` and bare `Exception`, each returning `None`.
We model one HTTP exchange as an oracle outcome and the `try` body as an
`Except` value, the handlers on top of it, and the decorator as a
fuel-indexed loop that counts the attempts actually made. -/

def RETRY_TIMES : Nat := 10

def RETRY_INTERVAL : Nat := 5000

inductive HttpOutcome where
  | status (code : Nat) (body : Option String)
  | timeoutExc
  | connExc
deriving DecidableEq

inductive PyExc where
  | timeout
  | httpStatusError (code : Nat)
  | other (msg : String)
deriving DecidableEq

/-- The `try` block of `api_request`: 429 raises after logging the computed
wait, 404 returns `None`, `raise_for_status` raises `HTTPStatusError` for any
4xx/5xx status, and a body that fails to decode as JSON raises. -/
def api_request_try_block (r : HttpOutcome) : Except PyExc (Option String) :=
  match r with
  | .timeoutExc => .error .timeout
  | .connExc => .error (.other "request exception")
  | .status code body =>
    if code = 429 then .error (.other "Rate limit exceeded")
    else if code = 404 then .ok none
    else if 400 ≤ code then .error (.httpStatusError code)
    else
      match body with
      | some j => .ok (some j)
      | none => .error (.other "json decode failed")

/-- One call of the decorated function: the `except` handlers catch every
exception the `try` block can raise and turn it into a returned `None`. -/
def api_request_once (r : HttpOutcome) : Except PyExc (Option String) :=
  match api_request_try_block r with
  | .ok v => .ok v
  | .error .timeout => .ok none
  | .error (.httpStatusError _) => .ok none
  | .error (.other _) => .ok none

/-- The `retrying` decorator: re-invoke only on a raised exception, with
`fuel + 1` attempts allowed in total; returns the outcome together with the
number of attempts actually made. -/
def retryRun {α : Type} (f : Nat → Except PyExc α) (i : Nat) :
    Nat → Except PyExc α × Nat
  | 0 => (f i, 1)
  | Nat.succ fuel =>
    match f i with
    | .ok v => (.ok v, 1)
    | .error _ =>
      let p := retryRun f (i + 1) fuel
      (p.1, p.2 + 1)

/-- `api_request` over a stream of per-attempt HTTP outcomes. -/
def api_request (responses : Nat → HttpOutcome) : Except PyExc (Option String) × Nat :=
  retryRun (fun i => api_request_once (responses i)) 0 (RETRY_TIMES - 1)

/-- C3 (what the code actually does): the `except` handlers swallow every
exception inside the decorated function, so the retry decorator never sees a
raise.  A 404 returns null in a single attempt as claimed, but a 500 — instead
of being retried up to RETRY_TIMES (= 10) times — also surfaces as null after
exactly one attempt, for every response stream. -/
theorem api_request_single_attempt :
    (∀ r : HttpOutcome, ∃ v, api_request_once r = .ok v)
    ∧ (∀ responses : Nat → HttpOutcome, (api_request responses).2 = 1)
    ∧ api_request (fun _ => .status 404 none) = (.ok none, 1)
    ∧ api_request (fun _ => .status 500 (some "server error")) = (.ok none, 1)
    ∧ RETRY_TIMES = 10 ∧ 1 < RETRY_TIMES := by
  have honce : ∀ r : HttpOutcome, ∃ v, api_request_once r = .ok v := by
    intro r
    unfold api_request_once
    cases hb : api_request_try_block r with
    | ok v => exact ⟨v, rfl⟩
    | error e => cases e <;> exact ⟨none, rfl⟩
  refine ⟨honce, ?_, rfl, rfl, rfl, by decide⟩
  intro responses
  unfold api_request
  obtain ⟨v, hv⟩ := honce (responses 0)
  show (retryRun (fun i => api_request_once (responses i)) 0 (Nat.succ 8)).2 = 1
  simp only [retryRun]
  rw [hv]

/-! ## Sorting relations

Python's `sorted(..., key=...)` is a stable ascending sort; a stable sort's
output is uniquely determined by the comparison, so we model it with
`List.insertionSort` (also stable) under the "key not greater" relation. -/

theorem chrsLtB_trichot (a b : List Char) :
    chrsLtB a b = true ∨ chrsLtB b a = true ∨ a = b := by
  cases hab : chrsLtB a b with
  | true => exact Or.inl rfl
  | false =>
    cases hba : chrsLtB b a with
    | true => exact Or.inr (Or.inl rfl)
    | false => exact Or.inr (Or.inr (chrsLtB_eq_of_not_lt a b hab hba))

theorem chrsLtB_asymm {a b : List Char} (h : chrsLtB a b = true) :
    chrsLtB b a = false := by
  cases hba : chrsLtB b a with
  | false => rfl
  | true =>
    have := chrsLtB_trans a b a h hba
    rw [chrsLtB_irrefl a] at this
    exact absurd this (by simp)

/-- `sorted(depots, key=lambda x: x[0])` comparison: depot ids are Python
ints, modelled as `Nat`. -/
def depotLe (a b : Nat × Option String) : Prop := a.1 ≤ b.1

instance : DecidableRel depotLe := fun a b => Nat.decLe a.1 b.1

instance : IsTotal (Nat × Option String) depotLe := ⟨fun a b => Nat.le_total a.1 b.1⟩

instance : IsTrans (Nat × Option String) depotLe := ⟨fun _ _ _ => Nat.le_trans⟩

/-- `sorted(manifest_list, key=lambda x: x[0])` comparison: the key is the
depot-id FIELD OF THE FILENAME, a string, compared by code points. -/
def manifestLe (a b : String × String) : Prop := chrsLtB b.1.data a.1.data = false

instance : DecidableRel manifestLe := fun a b =>
  instDecidableEqBool (chrsLtB b.1.data a.1.data) false

instance : IsTotal (String × String) manifestLe := by
  refine ⟨fun a b => ?_⟩
  cases h : chrsLtB b.1.data a.1.data with
  | false => exact Or.inl h
  | true => exact Or.inr (chrsLtB_asymm h)

instance : IsTrans (String × String) manifestLe := by
  refine ⟨fun a b c hab hbc => ?_⟩
  unfold manifestLe at hab hbc ⊢
  cases hca : chrsLtB c.1.data a.1.data with
  | false => rfl
  | true =>
    rcases chrsLtB_trichot b.1.data c.1.data with h | h | h
    · have htr := chrsLtB_trans b.1.data c.1.data a.1.data h hca
      rw [htr] at hab
      exact hab
    · rw [h] at hbc
      exact hbc
    · rw [h] at hab
      rw [hca] at hab
      exact hab

/-! ## Finalize (`store_app_info` in `main.py`, `_save_app_info` in
`core/client.py`)

    depot_list = sorted(set(self.depots), key=lambda x: x[0])
    depot_list = remove_duplicates(depot_list)
    ... one addappid line per record, key included only when truthy ...
    if fixed mode: manifest_list = sorted([(x.split("_")[0],
        x.split("_")[1].split(".")[0]) for x in manifests], key=lambda x: x[0])
    ... one setManifestid line per pair ...

`set(...)` enumerates the distinct exact pairs in an unspecified order; we
model one such enumeration (first-occurrence order) and prove the
order-sensitive claims for EVERY list fed to the sort. -/

def dedupExactPairs (l : List (Nat × Option String)) : List (Nat × Option String) :=
  l.foldl (fun acc x => if x ∈ acc then acc else acc ++ [x]) []

def finalize_depot_list (s : List (Nat × Option String)) : List (Nat × Option String) :=
  remove_duplicates (List.insertionSort depotLe s)

/-- One `addappid` line; `if depot_key` is Python truthiness, so an empty
string key also falls into the keyless branch. -/
def addappidLine (t : Nat × Option String) : String :=
  match t.2 with
  | some k =>
    if k = "" then "addappid(" ++ Nat.repr t.1 ++ ", 1)"
    else "addappid(" ++ Nat.repr t.1 ++ ", 1, \"" ++ k ++ "\")"
  | none => "addappid(" ++ Nat.repr t.1 ++ ", 1)"

/-- `(x.split("_")[0], x.split("_")[1].split(".")[0])`; `none` models the
`IndexError` raised when the filename contains no underscore. -/
def manifestPair? (name : String) : Option (String × String) :=
  match pySplit name '_' with
  | p0 :: p1 :: _ => some (p0, (pySplit p1 '.').headD "")
  | _ => none

/-- The list comprehension over all collected manifest names: any raising
element aborts `store_app_info` (caught and logged, nothing written). -/
def parsePairs : List String → Option (List (String × String))
  | [] => some []
  | m :: ms =>
    match manifestPair? m, parsePairs ms with
    | some p, some ps => some (p :: ps)
    | _, _ => none

def setManifestidLine (p : String × String) : String :=
  "setManifestid(" ++ p.1 ++ ", \"" ++ p.2 ++ "\")"

def manifestLines? (fixedMode : Bool) (manifests : List String) : Option (List String) :=
  if fixedMode then
    match parsePairs manifests with
    | none => none
    | some ps => some ((List.insertionSort manifestLe ps).map setManifestidLine)
  else some []

/-- The full text content generated by `store_app_info` as a list of lines
(`none` when the manifest-name parsing raises and nothing is written). -/
def store_app_info_lines (appInfo : List String) (fixedMode : Bool)
    (manifests : List String) (depots : List (Nat × Option String)) :
    Option (List String) :=
  match manifestLines? fixedMode manifests with
  | none => none
  | some mls =>
    some ((if 1 < appInfo.length then ["-- " ++ appInfo.getD 1 ""] else [])
      ++ (finalize_depot_list (dedupExactPairs depots)).map addappidLine
      ++ mls)

/-- C4: for every depot accumulation handed to Finalize (in whatever order
`set(...)` enumerates it), the depot-id column of the emitted `addappid`
records is strictly increasing — sorted ascending with each depot id exactly
once — and it covers exactly the ids of the input; the generated file emits
one `addappid` line per record of `finalize_depot_list` in that order. -/
theorem finalize_depot_list_sorted_unique :
    (∀ s : List (Nat × Option String),
        ((finalize_depot_list s).map Prod.fst).Pairwise (· < ·)
      ∧ (∀ i, i ∈ (finalize_depot_list s).map Prod.fst ↔ i ∈ s.map Prod.fst))
    ∧ (∀ appInfo fm ms depots lines,
        store_app_info_lines appInfo fm ms depots = some lines →
        ∃ pre post, lines =
          pre ++ (finalize_depot_list (dedupExactPairs depots)).map addappidLine
              ++ post) := by
  constructor
  · intro s
    have hsorted : List.Sorted depotLe (List.insertionSort depotLe s) :=
      List.sorted_insertionSort depotLe s
    have hperm : (List.insertionSort depotLe s).Perm s := List.perm_insertionSort depotLe s
    have hmap_le : ((List.insertionSort depotLe s).map Prod.fst).Pairwise (· ≤ ·) :=
      List.pairwise_map.mpr hsorted
    have hsub :
        ((finalize_depot_list s).map Prod.fst).Sublist
          ((List.insertionSort depotLe s).map Prod.fst) := by
      have := map_fst_foldl_sublist (List.insertionSort depotLe s) []
      simpa [finalize_depot_list, remove_duplicates] using this
    have hle : ((finalize_depot_list s).map Prod.fst).Pairwise (· ≤ ·) :=
      hmap_le.sublist hsub
    have hnd : ((finalize_depot_list s).map Prod.fst).Nodup := by
      have := map_fst_foldl_nodup (List.insertionSort depotLe s) [] (by simp)
      simpa [finalize_depot_list, remove_duplicates] using this
    refine ⟨(hle.and hnd).imp ?_, ?_⟩
    · intro a b hab
      exact lt_of_le_of_ne hab.1 hab.2
    · intro i
      have hmem := mem_map_fst_foldl (List.insertionSort depotLe s) [] i
      simp only [List.map_nil, List.not_mem_nil, false_or] at hmem
      have : i ∈ (List.insertionSort depotLe s).map Prod.fst ↔ i ∈ s.map Prod.fst :=
        (hperm.map Prod.fst).mem_iff
      rw [← this]
      simpa [finalize_depot_list, remove_duplicates] using hmem
  · intro appInfo fm ms depots lines hl
    unfold store_app_info_lines at hl
    cases hml : manifestLines? fm ms with
    | none => rw [hml] at hl; exact absurd hl (by simp)
    | some mls =>
      rw [hml] at hl
      simp only [Option.some.injEq] at hl
      exact ⟨_, mls, by rw [← hl, List.append_assoc]⟩

theorem finalize_depot_list_sorted_unique_witness :
    ∃ pre post, ["addappid(1, 1)"] =
      pre ++ (finalize_depot_list (dedupExactPairs [(1, none)])).map addappidLine
          ++ post :=
  finalize_depot_list_sorted_unique.2 [] false [] [(1, none)] ["addappid(1, 1)"]
    (by decide)

/-! ### Manifest-reference lemmas, shared by the fixed-mode claims -/

theorem manifestLines_perm_parsed (ms : List String) (ps : List (String × String))
    (h : parsePairs ms = some ps) :
    manifestLines? true ms = some ((List.insertionSort manifestLe ps).map setManifestidLine)
    ∧ ((List.insertionSort manifestLe ps).map setManifestidLine).Perm
        (ps.map setManifestidLine) := by
  constructor
  · unfold manifestLines?
    rw [h]
    simp
  · exact (List.perm_insertionSort manifestLe ps).map setManifestidLine

theorem parsePairs_mem (ms : List String) (ps : List (String × String))
    (h : parsePairs ms = some ps) :
    ∀ m ∈ ms, ∃ p, manifestPair? m = some p ∧ p ∈ ps := by
  induction ms generalizing ps with
  | nil => intro m hm; simp at hm
  | cons x xs ih =>
    intro m hm
    unfold parsePairs at h
    cases hx : manifestPair? x with
    | none => rw [hx] at h; exact absurd h (by simp)
    | some p =>
      rw [hx] at h
      cases hxs : parsePairs xs with
      | none => rw [hxs] at h; exact absurd h (by simp)
      | some ps' =>
        rw [hxs] at h
        simp only [Option.some.injEq] at h
        rcases List.mem_cons.mp hm with hm | hm
        · exact ⟨p, hm ▸ hx, by rw [← h]; exact List.mem_cons_self _ _⟩
        · obtain ⟨q, hq1, hq2⟩ := ih ps' hxs m hm
          exact ⟨q, hq1, by rw [← h]; exact List.mem_cons_of_mem _ hq2⟩

/-- C6 counterexample: with fixed mode on, the collected names
`9_1.manifest` and `10_2.manifest` produce the `setManifestid` lines in the
order 10 before 9 — the sort key is the depot-id FIELD AS A STRING, so the
emitted lines are not ascending by numeric depot id as the claim states. -/
theorem manifestLines_not_numerically_sorted :
    manifestLines? true ["9_1.manifest", "10_2.manifest"] =
      some ["setManifestid(10, \"2\")", "setManifestid(9, \"1\")"]
    ∧ ((List.insertionSort manifestLe [("9", "1"), ("10", "2")]).map
        (fun p => pyInt p.1)) = [10, 9]
    ∧ ¬ ([10, 9] : List Nat).Pairwise (· ≤ ·) := by
  decide

/-- C6 (amended): with fixed mode off no `setManifestid` line is emitted; with
fixed mode on exactly one `setManifestid(<id>, "<manifestId>")` line is
emitted per collected filename (the emitted multiset is a permutation of the
per-filename lines), and the lines are sorted ascending by the depot-id field
compared AS A STRING (code-point lexicographic, which agrees with numeric
order only for ids of equal digit length); `"123456_789.manifest"` parses to
`("123456", "789")` and round-trips to `setManifestid(123456, "789")`. -/
theorem manifestLines_spec :
    (∀ ms, manifestLines? false ms = some [])
    ∧ (∀ ms ps, parsePairs ms = some ps →
        manifestLines? true ms =
          some ((List.insertionSort manifestLe ps).map setManifestidLine)
        ∧ ((List.insertionSort manifestLe ps).map setManifestidLine).Perm
            (ps.map setManifestidLine))
    ∧ (∀ ps : List (String × String),
        ((List.insertionSort manifestLe ps).map Prod.fst).Pairwise
          (fun a b => chrsLtB b.data a.data = false))
    ∧ manifestPair? "123456_789.manifest" = some ("123456", "789")
    ∧ manifestLines? true ["123456_789.manifest"] =
        some ["setManifestid(123456, \"789\")"] := by
  refine ⟨fun ms => rfl, manifestLines_perm_parsed, ?_, by decide, by decide⟩
  intro ps
  have hsorted : List.Sorted manifestLe (List.insertionSort manifestLe ps) :=
    List.sorted_insertionSort manifestLe ps
  exact List.pairwise_map.mpr hsorted

theorem manifestLines_spec_witness :
    manifestLines? true ["123456_789.manifest"] =
      some ((List.insertionSort manifestLe [("123456", "789")]).map setManifestidLine)
    ∧ ((List.insertionSort manifestLe [("123456", "789")]).map setManifestidLine).Perm
        ([("123456", "789")].map setManifestidLine) :=
  manifestLines_spec.2.1 ["123456_789.manifest"] [("123456", "789")] (by decide)

/-! ## Filesystem writes (`store_manifest_file` / `store_app_info` in
`main.py`, `_store_manifest_file` / `_save_app_info` in `core/client.py`)

Writes are modelled as operation traces: `write` creates/overwrites a file
with full content, `rename` atomically moves the source over the destination.
Paths are the plain file names inside the target directory. -/

inductive FsOp where
  | write (path : String) (content : String)
  | rename (src : String) (dst : String)
deriving DecidableEq

def joinWithDot : List (List Char) → List Char
  | [] => []
  | [p] => p
  | p :: ps => p ++ '.' :: joinWithDot ps

/-- `Path.with_suffix(".tmp")` on a plain file name: replace everything after
the last dot by `tmp`, or append `.tmp` when the name has no dot. -/
def withSuffixTmp (p : String) : String :=
  match chrsSplit '.' p.data with
  | [] => ⟨p.data ++ ('.' :: "tmp".data)⟩
  | [_] => ⟨p.data ++ ('.' :: "tmp".data)⟩
  | ps => ⟨joinWithDot ps.dropLast ++ ('.' :: "tmp".data)⟩

def applyOp (st : String → Option String) : FsOp → String → Option String
  | FsOp.write p d => fun q => if q = p then some d else st q
  | FsOp.rename src dst => fun q =>
      if q = dst then st src else if q = src then none else st q

def applyOps (st : String → Option String) : List FsOp → String → Option String
  | [] => st
  | op :: ops => applyOps (applyOp st op) ops

/-- The write/rename trace of `store_app_info`'s file output
(`<appid>.lua` written via `.tmp` then `Path.replace`). -/
def store_app_info_ops (luaName : String) (content : String) : List FsOp :=
  [FsOp.write (withSuffixTmp luaName) content,
   FsOp.rename (withSuffixTmp luaName) luaName]

/-! ## Per-file oracles and handler effects (`process_manifest_file` and the
handlers it dispatches to) -/

structure FileEnv where
  raw : Option String
  vdfAppName : Option String
  vdfKeys : Option (List (Nat × String))
  configJson : Option (List Nat × List Nat)
  destExists : Bool
deriving DecidableEq

structure FileEffect where
  manifestAdds : List String
  appNameAdds : List String
  depotAdds : List (Nat × Option String)
  packageDlcs : List Nat
  ops : List FsOp
  raises : Bool
deriving DecidableEq

def noEffect : FileEffect := ⟨[], [], [], [], [], false⟩

/-- `store_manifest_file`: `self.manifests.append(path)` is the FIRST
statement — before the existence check and before the download; an existing
destination or a failed download still leaves the name collected. -/
def store_manifest_file (fe : FileEnv) (path : String) : FileEffect :=
  if fe.destExists then
    { noEffect with manifestAdds := [path] }
  else
    match fe.raw with
    | none => { noEffect with manifestAdds := [path] }
    | some content =>
      { noEffect with
          manifestAdds := [path],
          ops := [FsOp.write (withSuffixTmp path) content,
                  FsOp.rename (withSuffixTmp path) path] }

/-- `handle_vdf_file`: downloads ANY `.vdf` file, then compares the name
case-sensitively against `appinfo.vdf` and `key.vdf`; a parse failure
re-raises (fails the task). -/
def handle_vdf_file (fe : FileEnv) (path : String) : FileEffect :=
  match fe.raw with
  | none => noEffect
  | some _ =>
    if path = "appinfo.vdf" then
      match fe.vdfAppName with
      | some nm => { noEffect with appNameAdds := [nm] }
      | none => { noEffect with raises := true }
    else if path = "key.vdf" then
      match fe.vdfKeys with
      | some ks => { noEffect with depotAdds := ks.map (fun p => (p.1, some p.2)) }
      | none => { noEffect with raises := true }
    else noEffect

/-- `handle_conf_file`: its own `except` swallows every failure, so it never
fails the task; `dlcs` become keyless depot records, `packagedlcs` drive
synchronous recursion (performed by the engine). -/
def handle_conf_file (fe : FileEnv) : FileEffect :=
  match fe.configJson with
  | none => noEffect
  | some (dlcs, packaged) =>
    { noEffect with
        depotAdds := dlcs.map (fun k => (k, none)),
        packageDlcs := packaged }

/-- `process_manifest_file`: dispatch purely on the file name. -/
def process_manifest_file (fe : FileEnv) (path : String) : FileEffect :=
  if strEndsWith path ".manifest" then store_manifest_file fe path
  else if strEndsWith path ".vdf" then handle_vdf_file fe path
  else if strEndsWith path ".json" && path == "config.json" then handle_conf_file fe
  else noEffect

/-! ### Path lemmas -/

theorem string_data_append (a b : String) : (a ++ b).data = a.data ++ b.data := by
  cases a; cases b; rfl

theorem strEndsWith_append (a b : String) : strEndsWith (a ++ b) b = true := by
  unfold strEndsWith
  rw [string_data_append]
  have hlen : (a.data ++ b.data).length - b.data.length = a.data.length := by
    rw [List.length_append]
    omega
  rw [hlen, List.drop_left]
  simp [Nat.le_add_left]

theorem withSuffixTmp_last (p : String) : (withSuffixTmp p).data.getLast? = some 'p' := by
  unfold withSuffixTmp
  cases h : chrsSplit '.' p.data with
  | nil => simp [List.getLast?_append]
  | cons a as =>
    cases as with
    | nil => simp [List.getLast?_append]
    | cons b bs => simp [List.getLast?_append]

theorem endsWith_getLast? {s t : String} (h : strEndsWith s t = true)
    (ht : t.data ≠ []) : s.data.getLast? = t.data.getLast? := by
  unfold strEndsWith at h
  rw [Bool.and_eq_true] at h
  have hdrop : s.data.drop (s.data.length - t.data.length) = t.data :=
    beq_iff_eq.mp h.2
  conv_lhs => rw [← List.take_append_drop (s.data.length - t.data.length) s.data]
  rw [List.getLast?_append, hdrop]
  cases hcase : t.data.getLast? with
  | none => exact absurd (List.getLast?_eq_none_iff.mp hcase) ht
  | some c => simp

theorem withSuffixTmp_ne_of_endsWith {p t : String} {c : Char}
    (h : strEndsWith p t = true) (hlast : t.data.getLast? = some c)
    (hc : c ≠ 'p') : withSuffixTmp p ≠ p := by
  intro heq
  have h1 : (withSuffixTmp p).data.getLast? = some 'p' := withSuffixTmp_last p
  have h2 : p.data.getLast? = some c := by
    rw [endsWith_getLast? h ?_]
    · exact hlast
    · intro hn
      rw [hn] at hlast
      simp at hlast
  rw [heq, h2] at h1
  exact hc (Option.some.inj h1)

/-! ### Atomic-trace lemmas -/

theorem isPrefix_pair {α : Type} {x y : α} {pre : List α}
    (h : List.IsPrefix pre [x, y]) : pre = [] ∨ pre = [x] ∨ pre = [x, y] := by
  obtain ⟨t, ht⟩ := h
  cases pre with
  | nil => exact Or.inl rfl
  | cons a pre' =>
    rw [List.cons_append] at ht
    injection ht with h1 h2
    subst h1
    cases pre' with
    | nil => exact Or.inr (Or.inl rfl)
    | cons b pre'' =>
      rw [List.cons_append] at h2
      injection h2 with h3 h4
      subst h3
      have : pre'' = [] := by
        cases pre'' with
        | nil => rfl
        | cons u us => rw [List.cons_append] at h4; exact absurd h4 (by simp)
      subst this
      exact Or.inr (Or.inr rfl)

theorem atomic_ops_prefix (tmp fin content : String) (st : String → Option String)
    (hne : tmp ≠ fin) (pre : List FsOp)
    (h : List.IsPrefix pre [FsOp.write tmp content, FsOp.rename tmp fin]) :
    applyOps st pre fin = st fin ∨ applyOps st pre fin = some content := by
  have hfin : fin ≠ tmp := Ne.symm hne
  rcases isPrefix_pair h with hp | hp | hp
  · subst hp
    exact Or.inl rfl
  · subst hp
    refine Or.inl ?_
    show applyOp st (FsOp.write tmp content) fin = st fin
    simp [applyOp, hfin]
  · subst hp
    refine Or.inr ?_
    show applyOp (applyOp st (FsOp.write tmp content)) (FsOp.rename tmp fin) fin
      = some content
    simp [applyOp, hfin]

theorem write_fin_not_mem (tmp fin content : String) (hne : tmp ≠ fin) (c : String) :
    FsOp.write fin c ∉ [FsOp.write tmp content, FsOp.rename tmp fin] := by
  intro hmem
  rcases List.mem_cons.mp hmem with h | h
  · injection h with h1 h2
    exact hne h1.symm
  · rw [List.mem_singleton] at h
    exact absurd h (by simp)

/-- C7: every manifest-cache and Lua write goes through a `.tmp` sibling
followed by a rename; the final path is never the target of a `write`
operation, and after ANY prefix of the trace the final path holds either its
original content or the complete new content — never a partial write. -/
theorem atomic_write_safety :
    (∀ (fe : FileEnv) (path : String), strEndsWith path ".manifest" = true →
        (∀ c, FsOp.write path c ∉ (store_manifest_file fe path).ops)
      ∧ (∀ (st : String → Option String) (pre : List FsOp),
          List.IsPrefix pre (store_manifest_file fe path).ops →
          applyOps st pre path = st path ∨
            ∃ c, fe.raw = some c ∧ applyOps st pre path = some c))
    ∧ (∀ (stem content : String),
        (∀ c, FsOp.write (stem ++ ".lua") c ∉
          store_app_info_ops (stem ++ ".lua") content)
      ∧ (∀ (st : String → Option String) (pre : List FsOp),
          List.IsPrefix pre (store_app_info_ops (stem ++ ".lua") content) →
          applyOps st pre (stem ++ ".lua") = st (stem ++ ".lua") ∨
            applyOps st pre (stem ++ ".lua") = some content)) := by
  constructor
  · intro fe path hsuf
    have hne : withSuffixTmp path ≠ path :=
      @withSuffixTmp_ne_of_endsWith path ".manifest" 't' hsuf (by decide) (by decide)
    unfold store_manifest_file
    by_cases hex : fe.destExists
    · refine ⟨fun c => by simp [hex, noEffect], fun st pre hpre => Or.inl ?_⟩
      simp only [hex, if_true] at hpre
      have : pre = [] := List.prefix_nil.mp hpre
      rw [this]
      rfl
    · cases hr : fe.raw with
      | none =>
        refine ⟨fun c => by simp [hex, noEffect], fun st pre hpre => Or.inl ?_⟩
        simp only [hex, if_false] at hpre
        have : pre = [] := List.prefix_nil.mp hpre
        rw [this]
        rfl
      | some content =>
        constructor
        · intro c
          simp only [hex, if_false]
          exact write_fin_not_mem (withSuffixTmp path) path content hne c
        · intro st pre hpre
          simp only [hex, if_false] at hpre
          rcases atomic_ops_prefix (withSuffixTmp path) path content st hne pre hpre
            with hc | hc
          · exact Or.inl hc
          · exact Or.inr ⟨content, rfl, hc⟩
  · intro stem content
    have hne : withSuffixTmp (stem ++ ".lua") ≠ stem ++ ".lua" :=
      @withSuffixTmp_ne_of_endsWith (stem ++ ".lua") ".lua" 'a'
        (strEndsWith_append stem ".lua") (by decide) (by decide)
    exact ⟨fun c => write_fin_not_mem _ _ content hne c,
      fun st pre hpre => atomic_ops_prefix _ _ content st hne pre hpre⟩

theorem atomic_write_safety_witness :
    ((∀ c, FsOp.write "440_1.manifest" c ∉
        (store_manifest_file ⟨some "bytes", none, none, none, false⟩
          "440_1.manifest").ops))
    ∧ (applyOps (fun _ => none) [] "440.lua" = (fun _ : String => none) "440.lua" ∨
        applyOps (fun _ => none) [] "440.lua" = some "content") :=
  ⟨(atomic_write_safety.1 ⟨some "bytes", none, none, none, false⟩
      "440_1.manifest" (by decide)).1,
   (atomic_write_safety.2 "440" "content").2 (fun _ => none) [] List.nil_prefix⟩

/-- C8 counterexample: `key.vdf` name matching is case-SENSITIVE.  `Key.vdf`
is a case variant (lower-cases to `key.vdf`) and is downloaded (it ends in
`.vdf`), but its depot-id → key mapping is NOT added; `KEY.VDF` does not even
match the `.vdf` suffix and is ignored entirely; only the exact `key.vdf`
contributes keyed records. -/
theorem key_vdf_case_sensitive_counterexample :
    pyLower "Key.vdf" = "key.vdf"
    ∧ strEndsWith "Key.vdf" ".vdf" = true
    ∧ (process_manifest_file ⟨some "vdftext", none, some [(228990, "abc")], none, false⟩
        "Key.vdf").depotAdds = []
    ∧ pyLower "KEY.VDF" = "key.vdf"
    ∧ strEndsWith "KEY.VDF" ".vdf" = false
    ∧ process_manifest_file ⟨some "vdftext", none, some [(228990, "abc")], none, false⟩
        "KEY.VDF" = noEffect
    ∧ (process_manifest_file ⟨some "vdftext", none, some [(228990, "abc")], none, false⟩
        "key.vdf").depotAdds = [(228990, some "abc")] := by
  decide

/-- C8 (amended): only the exact lower-case name `key.vdf` has its decoded
depot-id → decryption-key mapping added as keyed DepotRecords; any other
`.vdf` file — case variants of `key.vdf` included — adds no depot records
(it is downloaded, and unless named `appinfo.vdf` its content is ignored). -/
theorem key_vdf_exact_name_only :
    (∀ (fe : FileEnv) (ks : List (Nat × String)),
        fe.raw.isSome = true → fe.vdfKeys = some ks →
        (process_manifest_file fe "key.vdf").depotAdds =
          ks.map (fun p => (p.1, some p.2)))
    ∧ (∀ (path : String) (fe : FileEnv),
        strEndsWith path ".manifest" = false → strEndsWith path ".vdf" = true →
        path ≠ "key.vdf" → (process_manifest_file fe path).depotAdds = []) := by
  constructor
  · intro fe ks hraw hks
    obtain ⟨rawContent, hr⟩ := Option.isSome_iff_exists.mp hraw
    have h1 : strEndsWith "key.vdf" ".manifest" = false := by decide
    have h2 : strEndsWith "key.vdf" ".vdf" = true := by decide
    simp only [process_manifest_file, h1, h2, if_false, if_true, Bool.false_eq_true]
    unfold handle_vdf_file
    rw [hr, hks]
    simp
  · intro path fe h1 h2 hpath
    simp only [process_manifest_file, h1, h2, if_false, if_true, Bool.false_eq_true]
    unfold handle_vdf_file
    cases hr : fe.raw with
    | none => rfl
    | some rawContent =>
      by_cases ha : path = "appinfo.vdf"
      · rw [if_pos ha]
        cases fe.vdfAppName <;> rfl
      · rw [if_neg ha, if_neg hpath]
        rfl

theorem key_vdf_exact_name_only_witness :
    (process_manifest_file ⟨some "vdftext", none, some [(228990, "abc")], none, false⟩
        "key.vdf").depotAdds = [(228990, "abc")].map (fun p => (p.1, some p.2))
    ∧ (process_manifest_file ⟨some "vdftext", none, some [(228990, "abc")], none, false⟩
        "Key.vdf").depotAdds = [] :=
  ⟨key_vdf_exact_name_only.1 ⟨some "vdftext", none, some [(228990, "abc")], none, false⟩
      [(228990, "abc")] (by decide) rfl,
   key_vdf_exact_name_only.2 "Key.vdf"
      ⟨some "vdftext", none, some [(228990, "abc")], none, false⟩
      (by decide) (by decide) (by decide)⟩

/-- C10: the manifest handler records the filename BEFORE the existence check
and before the download — for every `.manifest` file and every oracle (the
destination may already exist, the download may fail) the name is collected
and the task succeeds; consequently in fixed-manifest mode one
`setManifestid` line is emitted for every `.manifest` file seen in the tree,
including skipped and failed ones. -/
theorem manifest_collected_before_checks :
    (∀ (fe : FileEnv) (path : String), strEndsWith path ".manifest" = true →
        (process_manifest_file fe path).manifestAdds = [path]
      ∧ (process_manifest_file fe path).raises = false)
    ∧ (∀ (ms : List String) (ps : List (String × String)) (m : String),
        parsePairs ms = some ps → m ∈ ms →
        ∃ p, manifestPair? m = some p ∧
          ∃ lines, manifestLines? true ms = some lines ∧ setManifestidLine p ∈ lines) := by
  constructor
  · intro fe path hsuf
    simp only [process_manifest_file, hsuf, if_true]
    unfold store_manifest_file
    by_cases hex : fe.destExists
    · simp [hex, noEffect]
    · cases hr : fe.raw with
      | none => simp [hex, hr, noEffect]
      | some content => simp [hex, hr, noEffect]
  · intro ms ps m hps hm
    obtain ⟨p, hp1, hp2⟩ := parsePairs_mem ms ps hps m hm
    refine ⟨p, hp1, (List.insertionSort manifestLe ps).map setManifestidLine,
      (manifestLines_perm_parsed ms ps hps).1, ?_⟩
    have : p ∈ List.insertionSort manifestLe ps :=
      (List.perm_insertionSort manifestLe ps).mem_iff.mpr hp2
    exact List.mem_map.mpr ⟨p, this, rfl⟩

theorem manifest_collected_before_checks_witness :
    ((process_manifest_file ⟨none, none, none, none, true⟩ "9_1.manifest").manifestAdds
        = ["9_1.manifest"]
      ∧ (process_manifest_file ⟨none, none, none, none, true⟩ "9_1.manifest").raises
        = false)
    ∧ ∃ p, manifestPair? "9_1.manifest" = some p ∧
        ∃ lines, manifestLines? true ["9_1.manifest"] = some lines ∧
          setManifestidLine p ∈ lines :=
  ⟨manifest_collected_before_checks.1 ⟨none, none, none, none, true⟩ "9_1.manifest"
      (by decide),
   manifest_collected_before_checks.2 ["9_1.manifest"] [("9", "1")] "9_1.manifest"
      (by decide) (by decide)⟩

/-! ## Acquisition engine (`handle_repository` in `main.py`,
`process_repository` in `core/client.py`)

Network and store lookups become an environment of oracles keyed by branch
name; the shared mutable accumulator (`appinfo`, `manifests`, `depots`) is an
explicit state.  File tasks all run (the pool executes every submitted task);
when any task raised, the sequential `task.get` loop re-raises, the branch
returns early and neither DLC discovery nor Finalize happens.  Recursion
(packaged DLCs inside `handle_conf_file`, store-discovered DLCs afterwards)
is fuel-indexed; the claims below supply sufficient fuel. -/

structure RepoEnv where
  branchTree : String → Option (List String)
  fileEnv : String → String → FileEnv
  storeName : String → Option String
  storeDlc : String → List Nat

structure EngineState where
  appInfo : List String
  manifests : List String
  depots : List (Nat × Option String)
  finalized : Bool
  luaLines : Option (List String)

def applyFileEffect (st : EngineState) (e : FileEffect) : EngineState :=
  { st with
      manifests := st.manifests ++ e.manifestAdds,
      appInfo := st.appInfo ++ e.appNameAdds,
      depots := st.depots ++ e.depotAdds }

/-- `query_steam_dlc`: on a successful store lookup the app name is appended
to `appinfo` and each DLC id is recorded as a keyless depot; on failure the
empty list is returned. -/
def querySteamDlc (env : RepoEnv) (branch : String) (st : EngineState) :
    EngineState × List Nat :=
  match env.storeName branch with
  | none => (st, [])
  | some nm =>
    let st1 := { st with appInfo := st.appInfo ++ [nm] }
    let dlc := env.storeDlc branch
    ({ st1 with depots := st1.depots ++ dlc.map (fun i => (i, none)) }, dlc)

/-- `all(task.successful() for task in tasks)` over the branch's file tasks. -/
def tasksSuccessful (env : RepoEnv) (branch : String) (files : List String) : Bool :=
  files.all fun p => !(process_manifest_file (env.fileEnv branch p) p).raises

/-- `store_app_info`: mark that Finalize ran and record the generated lines. -/
def finalizeState (fm : Bool) (st : EngineState) : EngineState :=
  { st with
      finalized := true,
      luaLines := store_app_info_lines st.appInfo fm st.manifests st.depots }

def processRepo (env : RepoEnv) (fm : Bool) :
    Nat → String → Bool → EngineState → EngineState
  | 0, _, _, st => st
  | Nat.succ fuel, branch, isDlc, st =>
    let st1 := { st with depots := st.depots ++ [(pyInt branch, none)] }
    match env.branchTree branch with
    | none => st1
    | some files =>
      let st2 := files.foldl (fun s p =>
        let e := process_manifest_file (env.fileEnv branch p) p
        let s1 := applyFileEffect s e
        e.packageDlcs.foldl
          (fun s2 d2 => processRepo env fm fuel (Nat.repr d2) true s2) s1) st1
      if tasksSuccessful env branch files then
        let q :=
          if files.contains "config.json" then (st2, ([] : List Nat))
          else querySteamDlc env branch st2
        let st4 := q.2.foldl
          (fun s d2 => processRepo env fm fuel (Nat.repr d2) true s) q.1
        if isDlc then st4 else finalizeState fm st4
      else st2

theorem finalize_depot_single (i : Nat) :
    finalize_depot_list (dedupExactPairs [(i, none)]) = [(i, none)] := by
  have h1 : dedupExactPairs [(i, none)] = [(i, none)] := by
    simp [dedupExactPairs]
  rw [h1]
  unfold finalize_depot_list
  have h2 : List.insertionSort depotLe [(i, none)] = [(i, none)] := by
    simp [List.insertionSort, List.orderedInsert]
  rw [h2]
  simp [remove_duplicates, dedupStep, dictGet, dictSet]

theorem store_app_info_single (appInfo : List String) (fm : Bool) (i : Nat) :
    store_app_info_lines appInfo fm [] [(i, none)] =
      some ((if 1 < appInfo.length then ["-- " ++ appInfo.getD 1 ""] else [])
        ++ ["addappid(" ++ Nat.repr i ++ ", 1)"]) := by
  have hm : manifestLines? fm [] = some [] := by
    cases fm <;> simp [manifestLines?, parsePairs]
  unfold store_app_info_lines
  rw [hm, finalize_depot_single]
  simp [addappidLine]

/-- C9: when the root branch resolves with a tree of zero files (and the
store reports no DLC), the all-tasks-successful check is vacuously true,
Finalize runs, and the generated Lua lines contain the
`addappid(<int(branch)>, 1)` line produced by the provisional depot entry
appended before any file processing. -/
theorem empty_tree_finalizes (env : RepoEnv) (fm : Bool) (fuel : Nat) (branch : String)
    (htree : env.branchTree branch = some [])
    (hdlc : env.storeDlc branch = []) :
    tasksSuccessful env branch [] = true
    ∧ ∃ lines,
        (processRepo env fm (Nat.succ fuel) branch false
            ⟨[branch], [], [], false, none⟩).finalized = true
      ∧ (processRepo env fm (Nat.succ fuel) branch false
            ⟨[branch], [], [], false, none⟩).luaLines = some lines
      ∧ ("addappid(" ++ Nat.repr (pyInt branch) ++ ", 1)") ∈ lines := by
  refine ⟨rfl, ?_⟩
  have hcontains : ([] : List String).contains "config.json" = false := rfl
  have hsucc : tasksSuccessful env branch [] = true := rfl
  cases hname : env.storeName branch with
  | none =>
    have hrun : processRepo env fm (Nat.succ fuel) branch false
        ⟨[branch], [], [], false, none⟩ =
        finalizeState fm ⟨[branch], [], [(pyInt branch, none)], false, none⟩ := by
      simp only [processRepo, htree]
      simp only [List.foldl_nil, hsucc, hcontains, if_true, Bool.false_eq_true, if_false]
      simp [querySteamDlc, hname]
    rw [hrun]
    refine ⟨["addappid(" ++ Nat.repr (pyInt branch) ++ ", 1)"], rfl, ?_, by simp⟩
    show store_app_info_lines [branch] fm [] [(pyInt branch, none)] = _
    rw [store_app_info_single]
    simp
  | some nm =>
    have hrun : processRepo env fm (Nat.succ fuel) branch false
        ⟨[branch], [], [], false, none⟩ =
        finalizeState fm ⟨[branch, nm], [], [(pyInt branch, none)], false, none⟩ := by
      simp only [processRepo, htree]
      simp only [List.foldl_nil, hsucc, hcontains, if_true, Bool.false_eq_true, if_false]
      simp [querySteamDlc, hname, hdlc]
    rw [hrun]
    refine ⟨["-- " ++ nm, "addappid(" ++ Nat.repr (pyInt branch) ++ ", 1)"], rfl, ?_,
      by simp⟩
    show store_app_info_lines [branch, nm] fm [] [(pyInt branch, none)] = _
    rw [store_app_info_single]
    simp

/-- A concrete environment whose branches all resolve to empty trees and
whose store lookups find nothing. -/
def emptyTreeEnv : RepoEnv :=
  { branchTree := fun _ => some [],
    fileEnv := fun _ _ => ⟨none, none, none, none, false⟩,
    storeName := fun _ => none,
    storeDlc := fun _ => [] }

theorem empty_tree_finalizes_witness :
    tasksSuccessful emptyTreeEnv "440" [] = true
    ∧ ∃ lines,
        (processRepo emptyTreeEnv false (Nat.succ 0) "440" false
            ⟨["440"], [], [], false, none⟩).finalized = true
      ∧ (processRepo emptyTreeEnv false (Nat.succ 0) "440" false
            ⟨["440"], [], [], false, none⟩).luaLines = some lines
      ∧ ("addappid(" ++ Nat.repr (pyInt "440") ++ ", 1)") ∈ lines :=
  empty_tree_finalizes emptyTreeEnv false 0 "440" rfl rfl
